import Mathlib

/-!
Shallow embedding of `treeson` (src/treeson/cli.py): the directory-traversal
engine `dir_to_json` and the GitHub flat-path tree builder
`github_repo_to_json`, together with proofs about the specification's claims.

Python dictionaries are modelled as insertion-ordered association lists
(`JNode`); a dictionary value is either a list of strings (the `"files"`
entry) or a nested dictionary (`JVal`).  Python exceptions are modelled by
the `Err` type and `Except Err` results.  The filesystem seen by
`dir_to_json` is modelled by the inductive `FS`; the diagnostic stream
(stderr warnings) is modelled as a `List String` returned alongside the
result node.
-/

set_option maxHeartbeats 1000000

/-- A JSON-like value as produced by the two converters: either a list of
file names (the value of a `"files"` key) or a nested dictionary, modelled
as an insertion-ordered association list, matching Python's `dict`. -/
inductive JVal where
  | list (xs : List String)
  | node (entries : List (String × JVal))

/-- A Python `dict` representing one tree node. -/
abbrev JNode := List (String × JVal)

/-- `k in d` for a Python dict. -/
def dictMem (k : String) (d : JNode) : Bool :=
  d.any (fun kv => kv.1 == k)

/-- `d[k]` lookup (first occurrence). -/
def dictGet? (k : String) (d : JNode) : Option JVal :=
  (d.find? (fun kv => kv.1 == k)).map (fun kv => kv.2)

/-- `d[k] = v` for a Python dict: replace the value in place if the key is
present, otherwise append the pair at the end (insertion order). -/
def dictSet (d : JNode) (k : String) (v : JVal) : JNode :=
  match d with
  | [] => [(k, v)]
  | (k', v') :: rest =>
    if k' == k then (k, v) :: rest else (k', v') :: dictSet rest k v

/-- `if k not in d: d[k] = dflt` followed by `d[k]`: returns the updated
dict together with the value now stored at `k`. -/
def dictSetGet (d : JNode) (k : String) (dflt : JVal) : JNode × JVal :=
  match dictGet? k d with
  | some v => (d, v)
  | none => (dictSet d k dflt, dflt)

/-- Errors raised by the modelled code.  `directoryNotFoundError` and
`treesonError` are the repository's own exception classes
(`DirectoryNotFoundError(TreesonError)` and the base `TreesonError` raised
at "Path is not a directory"); the rest model built-in Python exceptions. -/
inductive Err where
  | directoryNotFoundError (msg : String)
  | treesonError (msg : String)
  | permissionError (msg : String)
  | attributeError (msg : String)
  | keyError (msg : String)
  | typeError (msg : String)
deriving DecidableEq

/-- `DEFAULT_IGNORES` from cli.py (a frozenset there; only membership is
ever used, so a list is an adequate model). -/
def DEFAULT_IGNORES : List String :=
  [".git", "__pycache__", ".DS_Store", "node_modules", "venv", ".venv",
   ".idea", ".pytest_cache", ".mypy_cache", ".tox", "dist", "build",
   "*.egg-info"]

/-- `TreesonConfig` dataclass. -/
structure TreesonConfig where
  ignores : List String
  include_hidden : Bool
  max_depth : Option Int

/-- The default configuration `TreesonConfig()`. -/
def defaultConfig : TreesonConfig :=
  { ignores := DEFAULT_IGNORES, include_hidden := false, max_depth := none }

/-- `s.startswith(t)`, computed on the character lists. -/
def strStartsWith (s t : String) : Bool :=
  t.data.isPrefixOf s.data

/-- `TreesonConfig.should_ignore`. -/
def TreesonConfig.should_ignore (c : TreesonConfig) (name : String) : Bool :=
  if !c.include_hidden && strStartsWith name "." then true
  else c.ignores.contains name

/-- The guard `config.max_depth is not None and current_depth >= config.max_depth`. -/
def TreesonConfig.depthExceeded (c : TreesonConfig) (depth : Nat) : Bool :=
  match c.max_depth with
  | none => false
  | some m => decide ((depth : Int) ≥ m)

/-- The filesystem as observed by `dir_to_json` through `pathlib`.  A node
is a regular file, a directory (whose listing may be permission-denied,
with its children in `iterdir` order), something that exists but is
neither a regular file nor a directory (socket, FIFO, broken symlink), or
an entry whose `stat` raises `PermissionError` (so `is_file`/`is_dir`
raise). -/
inductive FS where
  | file (name : String)
  | dir (name : String) (listDenied : Bool) (children : List FS)
  | other (name : String)
  | statDenied (name : String)

/-- `path.name`. -/
def FS.name : FS → String
  | .file n => n
  | .dir n _ _ => n
  | .other n => n
  | .statDenied n => n

/-- The value of `x.is_dir()` when it does not raise. -/
def FS.isDirB : FS → Bool
  | .dir _ _ _ => true
  | _ => false

/-- The value of `x.is_file()` when it does not raise. -/
def FS.isFileB : FS → Bool
  | .file _ => true
  | _ => false

/-- Whether `x.stat()` (hence `is_file`/`is_dir`) raises `PermissionError`. -/
def FS.isStatDenied : FS → Bool
  | .statDenied _ => true
  | _ => false

/-- Strict code-point lexicographic order on character lists, matching
Python's `<` on `str`. -/
def charListLt : List Char → List Char → Bool
  | [], [] => false
  | [], _ :: _ => true
  | _ :: _, [] => false
  | a :: as, b :: bs => decide (a < b) || (a == b && charListLt as bs)

/-- `s <= t` in Python's string order. -/
def strLe (s t : String) : Bool :=
  s == t || charListLt s.data t.data

/-- `s.lower()` (ASCII case folding; the names in this development are
ASCII, where Python's `str.lower` agrees). -/
def strLower (s : String) : String :=
  ⟨s.data.map Char.toLower⟩

/-- The sort key of cli.py line 104: `(not x.is_dir(), x.name.lower())`. -/
def FS.sortKey (x : FS) : Bool × String :=
  (!x.isDirB, strLower x.name)

/-- Lexicographic `<=` on sort keys, with `False < True` as in Python. -/
def keyLe (a b : Bool × String) : Bool :=
  (!a.1 && b.1) || (a.1 == b.1 && strLe a.2 b.2)

/-- Entry comparison used by the traversal's `sorted` call. -/
def fsLe (a b : FS) : Bool :=
  keyLe a.sortKey b.sortKey

/-- Insert into a sorted list, before the first element not `le`-below the
inserted one (the stable position). -/
def insertSorted (le : α → α → Bool) (a : α) : List α → List α
  | [] => [a]
  | b :: l => if le a b then a :: b :: l else b :: insertSorted le a l

/-- Stable insertion sort; Python's `sorted` with a key function is the
(unique) stable sort by that key, which this realises with `le = fsLe`. -/
def insertionSortB (le : α → α → Bool) : List α → List α
  | [] => []
  | a :: l => insertSorted le a (insertionSortB le l)

/-- The stderr message `f"Warning: Permission denied accessing {path}"`. -/
def permWarn (p : String) : String :=
  "Warning: Permission denied accessing " ++ p

/-- cli.py line 104, `sorted(path.iterdir(), key=lambda x: (not x.is_dir(), x.name.lower()))`:
listing raises `PermissionError` if the directory listing is denied; the
key function calls `x.is_dir()` on every child before sorting, so a
stat-denied child also raises `PermissionError` out of the `sorted` call. -/
def listAndSort (listDenied : Bool) (children : List FS) : Except Err (List FS) :=
  if listDenied then .error (.permissionError "iterdir")
  else if children.any FS.isStatDenied then .error (.permissionError "is_dir in sort key")
  else .ok (insertionSortB fsLe children)

/-- `result["files"].append(n)`: appends when `result["files"]` is a list,
raises `AttributeError` when it is a dict, `KeyError` when absent. -/
def appendFiles (d : JNode) (n : String) : Except Err JNode :=
  match dictGet? "files" d with
  | some (.list xs) => .ok (dictSet d "files" (.list (xs ++ [n])))
  | some (.node _) => .error (.attributeError "dict object has no attribute append")
  | none => .error (.keyError "files")

mutual

/-- `dir_to_json` on an existing path (cli.py lines 91-122), after the
`exists()` check has been resolved by the caller.  `p` is the path string
used in messages. -/
def dirToJsonFS (p : String) (fs : FS) (cfg : TreesonConfig) (depth : Nat) :
    Except Err (JNode × List String) :=
  match fs with
  | .statDenied _ => .error (.permissionError ("stat: " ++ p))
  | .file _ => .error (.treesonError ("Path is not a directory: " ++ p))
  | .other _ => .error (.treesonError ("Path is not a directory: " ++ p))
  | .dir _ listDenied children =>
    let result : JNode := [("files", .list [])]
    if cfg.depthExceeded depth then .ok (result, [])
    else
      match hi : listAndSort listDenied children with
      | .error _ => .ok (result, [permWarn p])
      | .ok items => processItems items cfg depth result []
termination_by sizeOf fs
decreasing_by
  all_goals simp_wf
  have h1 : ∀ (a : FS) (l : List FS),
      sizeOf (insertSorted fsLe a l) = 1 + sizeOf a + sizeOf l := by
    intro a l
    induction l with
    | nil => simp [insertSorted]
    | cons b t ih => simp only [insertSorted]; split <;> simp <;> omega
  have h2 : ∀ l : List FS, sizeOf (insertionSortB fsLe l) = sizeOf l := by
    intro l
    induction l with
    | nil => rfl
    | cons a t ih => simp only [insertionSortB]; rw [h1]; simp; omega
  simp only [listAndSort] at hi
  split at hi
  · simp_all
  · split at hi
    · simp_all
    · injection hi with hh
      subst hh
      rw [h2]
      omega

/-- The `for item in items` loop of cli.py lines 109-120, carrying the
result dict and the warnings emitted so far. -/
def processItems (items : List FS) (cfg : TreesonConfig) (depth : Nat)
    (acc : JNode) (ws : List String) : Except Err (JNode × List String) :=
  match items with
  | [] => .ok (acc, ws)
  | item :: rest =>
    if cfg.should_ignore item.name then processItems rest cfg depth acc ws
    else
      match item with
      | .file n =>
        match appendFiles acc n with
        | .ok acc' => processItems rest cfg depth acc' ws
        | .error e => .error e
      | .dir n ld cs =>
        match dirToJsonFS n (.dir n ld cs) cfg (depth + 1) with
        | .ok (child, cws) =>
          processItems rest cfg depth (dictSet acc n (.node child)) (ws ++ cws)
        | .error (.permissionError _) =>
          processItems rest cfg depth acc (ws ++ [permWarn n])
        | .error e => .error e
      | .other _ => processItems rest cfg depth acc ws
      | .statDenied n => processItems rest cfg depth acc (ws ++ [permWarn n])
termination_by sizeOf items
decreasing_by
  all_goals simp_wf
  all_goals omega

end

/-- `dir_to_json` (cli.py lines 68-122).  The target is `none` when the
path does not exist; a `statDenied` target makes `path.exists()` itself
raise `PermissionError`. -/
def dir_to_json (p : String) (t : Option FS) (cfg : TreesonConfig)
    (depth : Nat) : Except Err (JNode × List String) :=
  match t with
  | none => .error (.directoryNotFoundError ("Directory not found: " ++ p))
  | some fs => dirToJsonFS p fs cfg depth

/-- One record of the GitHub tree listing: `{path: string, type: "blob"|"tree"}`.
Fetching and JSON parsing are the external collaborator; the builder
consumes the already-parsed list. -/
structure GHEntry where
  path : String
  type : String

/-- `s.split(sep)` for a one-character separator, on character lists
(Python: `"".split("/") == [""]`, `"a//b".split("/") == ["a","","b"]`). -/
def splitChar (sep : Char) (cs : List Char) (acc : List Char) : List String :=
  match cs with
  | [] => [⟨acc.reverse⟩]
  | c :: rest =>
    if c == sep then ⟨acc.reverse⟩ :: splitChar sep rest []
    else splitChar sep rest (c :: acc)

/-- `node["path"].split("/")`. -/
def splitPath (s : String) : List String :=
  splitChar '/' s.data []

/-- One entry's navigation/insertion (cli.py lines 188-204) acting on the
current container.  Python aliasing (`current = current[part]`) is realised
by writing the recursively updated child back into its slot.  A container
that is a list (the value of a `"files"` key reached as a path segment)
makes indexing by a string raise `TypeError`, and `.append` on a dict
raises `AttributeError`, exactly as in Python. -/
def insertVal (v : JVal) (parts : List String) (ty : String) : Except Err JVal :=
  match v, parts with
  | v, [] => .ok v
  | .node d, [final] =>
    if ty == "blob" then
      match dictSetGet d "files" (.list []) with
      | (d1, .list xs) => .ok (.node (dictSet d1 "files" (.list (xs ++ [final]))))
      | (_, .node _) => .error (.attributeError "dict object has no attribute append")
    else if ty == "tree" then
      if dictMem final d then .ok (.node d)
      else .ok (.node (dictSet d final (.node [("files", .list [])])))
    else .ok (.node d)
  | .list xs, [final] =>
    if ty == "blob" then .error (.typeError "list indices must be integers")
    else if ty == "tree" then
      if xs.contains final then .ok (.list xs)
      else .error (.typeError "list indices must be integers")
    else .ok (.list xs)
  | .node d, part :: p2 :: rest =>
    match dictSetGet d part (.node [("files", .list [])]) with
    | (d1, v) =>
      match insertVal v (p2 :: rest) ty with
      | .ok v' => .ok (.node (dictSet d1 part v'))
      | .error e => .error e
  | .list xs, _ :: _ :: _ => .error (.typeError "list indices must be integers")

/-- The body of the `for node in tree` loop (cli.py lines 181-204). -/
def ghStep (cfg : TreesonConfig) (root : JNode) (nd : GHEntry) : Except Err JNode :=
  let path_parts := splitPath nd.path
  if path_parts.any (fun part => cfg.should_ignore part) then .ok root
  else
    match insertVal (.node root) path_parts nd.type with
    | .ok (.node d) => .ok d
    | .ok (.list _) => .ok root
    | .error e => .error e

/-- The tree-construction core of `github_repo_to_json` (cli.py lines
178-206), starting from `root = {}` and folding the flat entry list in the
order supplied. -/
def github_repo_to_json (tree : List GHEntry) (cfg : TreesonConfig) :
    Except Err JNode :=
  tree.foldlM (ghStep cfg) []

/-- The file and directory names contained anywhere in a dictionary: keys
that hold a nested node (directory names) and elements of list values
(file names).  The structural key `"files"` itself, holding a list, is not
a name. -/
def namesList : List (String × JVal) → List String
  | [] => []
  | (_, .list xs) :: rest => xs ++ namesList rest
  | (k, .node d) :: rest => k :: (namesList d ++ namesList rest)

/-- The names contained in one dictionary value: its elements for a list,
`namesList` of its entries for a node. -/
def JVal.names : JVal → List String
  | .list xs => xs
  | .node d => namesList d

/-- The names a single entry `(k, v)` contributes to `namesList`: the key
counts as a directory name only when the value is a node. -/
def entryNames (k : String) : JVal → List String
  | .list xs => xs
  | .node d => k :: namesList d

/-- The names contributed by a single dictionary entry at top level: a
list value contributes its elements (file names), a node value contributes
its key (a subdirectory name). -/
def entryTopNames : String × JVal → List String
  | (_, .list xs) => xs
  | (k, .node _) => [k]

/-- The file names and immediate subdirectory names of one node. -/
def topNames (d : JNode) : List String :=
  (d.map entryTopNames).flatten

/-- Results a `dir_to_json` call on an existing directory can produce:
success, or one of the uncaught built-in errors (`AttributeError` /
`KeyError` from the `"files"` slot being clobbered) — but never the typed
`DirectoryNotFoundError` / `TreesonError` failures nor a `PermissionError`. -/
def nonFatal : Except Err (JNode × List String) → Prop
  | .ok _ => True
  | .error (.attributeError _) => True
  | .error (.keyError _) => True
  | .error _ => False

/-!  ## Order theory for the traversal's sort -/

theorem charListLt_trichot :
    ∀ cs ds : List Char, cs = ds ∨ charListLt cs ds = true ∨ charListLt ds cs = true := by
  intro cs
  induction cs with
  | nil => intro ds; cases ds <;> simp [charListLt]
  | cons a as ih =>
    intro ds
    cases ds with
    | nil => simp [charListLt]
    | cons b bs =>
      rcases lt_trichotomy a b with h | h | h
      · right; left; simp [charListLt, h]
      · subst h
        rcases ih bs with h2 | h2 | h2
        · left; rw [h2]
        · right; left; simp [charListLt, h2]
        · right; right; simp [charListLt, h2]
      · right; right; simp [charListLt, h]

theorem charListLt_trans :
    ∀ as bs cs : List Char, charListLt as bs = true → charListLt bs cs = true →
      charListLt as cs = true := by
  intro as
  induction as with
  | nil =>
    intro bs cs h1 h2
    cases bs with
    | nil => simp [charListLt] at h1
    | cons b bs' =>
      cases cs with
      | nil => simp [charListLt] at h2
      | cons c cs' => simp [charListLt]
  | cons a as' ih =>
    intro bs cs h1 h2
    cases bs with
    | nil => simp [charListLt] at h1
    | cons b bs' =>
      cases cs with
      | nil => simp [charListLt] at h2
      | cons c cs' =>
        simp only [charListLt, Bool.or_eq_true, Bool.and_eq_true, decide_eq_true_eq,
          beq_iff_eq] at h1 h2 ⊢
        rcases h1 with h1 | ⟨h1e, h1r⟩
        · rcases h2 with h2 | ⟨h2e, h2r⟩
          · exact Or.inl (lt_trans h1 h2)
          · exact Or.inl (h2e ▸ h1)
        · rcases h2 with h2 | ⟨h2e, h2r⟩
          · exact Or.inl (h1e ▸ h2)
          · exact Or.inr ⟨h1e.trans h2e, ih bs' cs' h1r h2r⟩

theorem string_eq_of_data_eq : ∀ s t : String, s.data = t.data → s = t := by
  intro s t h
  cases s
  cases t
  exact congrArg String.mk h

theorem strLe_total : ∀ s t : String, strLe s t = true ∨ strLe t s = true := by
  intro s t
  rcases charListLt_trichot s.data t.data with h | h | h
  · left
    have : s = t := string_eq_of_data_eq s t h
    simp [strLe, this]
  · left; simp [strLe, h]
  · right; simp [strLe, h]

theorem strLe_trans : ∀ s t u : String, strLe s t = true → strLe t u = true →
    strLe s u = true := by
  intro s t u h1 h2
  simp only [strLe, Bool.or_eq_true, beq_iff_eq] at h1 h2 ⊢
  rcases h1 with h1 | h1
  · subst h1; exact h2
  · rcases h2 with h2 | h2
    · subst h2; exact Or.inr h1
    · exact Or.inr (charListLt_trans _ _ _ h1 h2)

theorem keyLe_total : ∀ a b : Bool × String, keyLe a b = true ∨ keyLe b a = true := by
  rintro ⟨a1, a2⟩ ⟨b1, b2⟩
  cases a1 <;> cases b1 <;> simp_all [keyLe] <;> exact strLe_total a2 b2

theorem fsLe_total : ∀ a b : FS, fsLe a b = true ∨ fsLe b a = true := by
  intro a b
  unfold fsLe
  exact keyLe_total _ _

theorem keyLe_trans : ∀ a b c : Bool × String, keyLe a b = true → keyLe b c = true →
    keyLe a c = true := by
  rintro ⟨a1, a2⟩ ⟨b1, b2⟩ ⟨c1, c2⟩ h1 h2
  cases a1 <;> cases b1 <;> cases c1 <;> simp_all [keyLe] <;>
    exact strLe_trans _ _ _ h1 h2

theorem fsLe_trans : ∀ a b c : FS, fsLe a b = true → fsLe b c = true →
    fsLe a c = true := by
  intro a b c h1 h2
  unfold fsLe at *
  exact keyLe_trans _ _ _ h1 h2

theorem perm_insertSorted (le : α → α → Bool) (a : α) :
    ∀ l : List α, List.Perm (insertSorted le a l) (a :: l) := by
  intro l
  induction l with
  | nil => exact List.Perm.refl _
  | cons b t ih =>
    simp only [insertSorted]
    split
    · exact List.Perm.refl _
    · exact (ih.cons b).trans (List.Perm.swap a b t)

theorem perm_insertionSortB (le : α → α → Bool) :
    ∀ l : List α, List.Perm (insertionSortB le l) l := by
  intro l
  induction l with
  | nil => exact List.Perm.refl _
  | cons a t ih =>
    simp only [insertionSortB]
    exact (perm_insertSorted le a _).trans (ih.cons a)

theorem mem_insertionSortB (le : α → α → Bool) (l : List α) (x : α) :
    x ∈ insertionSortB le l ↔ x ∈ l :=
  (perm_insertionSortB le l).mem_iff

theorem pairwise_insertSorted (le : α → α → Bool)
    (htot : ∀ a b, le a b = true ∨ le b a = true)
    (htrans : ∀ a b c, le a b = true → le b c = true → le a c = true)
    (a : α) :
    ∀ l : List α, l.Pairwise (fun x y => le x y = true) →
      (insertSorted le a l).Pairwise (fun x y => le x y = true) := by
  intro l
  induction l with
  | nil => intro _; simp [insertSorted]
  | cons b t ih =>
    intro h
    rcases List.pairwise_cons.mp h with ⟨hb, ht⟩
    simp only [insertSorted]
    split
    · rename_i hab
      refine List.pairwise_cons.mpr ⟨?_, h⟩
      intro x hx
      rcases List.mem_cons.mp hx with hx | hx
      · subst hx; exact hab
      · exact htrans a b x hab (hb x hx)
    · rename_i hab
      refine List.pairwise_cons.mpr ⟨?_, ih ht⟩
      intro x hx
      have hx' : x ∈ a :: t := (perm_insertSorted le a t).mem_iff.mp hx
      rcases List.mem_cons.mp hx' with hx' | hx'
      · rw [hx']
        rcases htot a b with hh | hh
        · exact absurd hh hab
        · exact hh
      · exact hb x hx'

theorem pairwise_insertionSortB (le : α → α → Bool)
    (htot : ∀ a b, le a b = true ∨ le b a = true)
    (htrans : ∀ a b c, le a b = true → le b c = true → le a c = true) :
    ∀ l : List α, (insertionSortB le l).Pairwise (fun x y => le x y = true) := by
  intro l
  induction l with
  | nil => simp [insertionSortB]
  | cons a t ih =>
    simp only [insertionSortB]
    exact pairwise_insertSorted le htot htrans a _ ih

/-!  ## Dictionary lemmas -/

theorem dictMem_dictSet (d : JNode) (k x : String) (v : JVal) :
    dictMem x (dictSet d k v) = (dictMem x d || k == x) := by
  induction d with
  | nil => simp [dictMem, dictSet]
  | cons kv rest ih =>
    obtain ⟨k', v'⟩ := kv
    simp only [dictSet]
    split
    · rename_i he
      simp only [beq_iff_eq] at he
      subst he
      simp only [dictMem, List.any_cons]
      cases hx : (k' == x) <;> simp
    · simp only [dictMem, List.any_cons] at *
      rw [ih]
      cases hx : (k' == x) <;> simp

theorem topNames_dictSet_absent (d : JNode) (k : String) (v : JVal)
    (h : dictMem k d = false) :
    topNames (dictSet d k v) = topNames d ++ entryTopNames (k, v) := by
  induction d with
  | nil => simp [dictSet, topNames]
  | cons kv rest ih =>
    obtain ⟨k', v'⟩ := kv
    simp only [dictMem, List.any_cons, Bool.or_eq_false_iff] at h
    obtain ⟨h1, h2⟩ := h
    simp only [dictSet, h1, Bool.false_eq_true, if_false]
    simp only [topNames, List.map_cons, List.flatten_cons] at *
    rw [ih h2, List.append_assoc]

theorem mem_topNames_dictSet_files (d : JNode) (xs ns : List String)
    (h : dictGet? "files" d = some (.list xs)) (nm : String) :
    nm ∈ topNames (dictSet d "files" (.list (xs ++ ns))) ↔
      nm ∈ topNames d ∨ nm ∈ ns := by
  induction d with
  | nil => simp [dictGet?] at h
  | cons kv rest ih =>
    obtain ⟨k', v'⟩ := kv
    by_cases hk : k' = "files"
    · subst hk
      simp only [dictGet?, List.find?_cons, beq_self_eq_true, Option.map] at h
      injection h with h
      subst h
      simp only [dictSet, beq_self_eq_true, if_pos]
      simp only [topNames, List.map_cons, List.flatten_cons, entryTopNames,
        List.mem_append]
      tauto
    · have hk' : (k' == "files") = false := by simp [hk]
      simp only [dictGet?, List.find?_cons, hk'] at h
      have hrest : dictGet? "files" rest = some (JVal.list xs) := by
        simpa [dictGet?] using h
      simp only [dictSet, hk', Bool.false_eq_true, if_false]
      simp only [topNames, List.map_cons, List.flatten_cons, List.mem_append]
      have := ih hrest
      simp only [topNames] at this
      tauto

/-!  ## Traversal invariants -/

theorem processItems_nil (cfg : TreesonConfig) (depth : Nat) (acc : JNode)
    (ws : List String) : processItems [] cfg depth acc ws = .ok (acc, ws) := by
  rw [processItems]

theorem processItems_cons_ignored (cfg : TreesonConfig) (depth : Nat)
    (acc : JNode) (ws : List String) (item : FS) (rest : List FS)
    (hig : cfg.should_ignore item.name = true) :
    processItems (item :: rest) cfg depth acc ws =
      processItems rest cfg depth acc ws := by
  rw [processItems.eq_def]
  simp [hig]

theorem processItems_cons_file (cfg : TreesonConfig) (depth : Nat)
    (acc : JNode) (ws : List String) (n : String) (rest : List FS)
    (hig : cfg.should_ignore n = false) :
    processItems (.file n :: rest) cfg depth acc ws =
      match appendFiles acc n with
      | .ok acc' => processItems rest cfg depth acc' ws
      | .error e => .error e := by
  rw [processItems.eq_def]
  simp [FS.name, hig]

theorem processItems_cons_dir (cfg : TreesonConfig) (depth : Nat)
    (acc : JNode) (ws : List String) (n : String) (ld : Bool) (cs : List FS)
    (rest : List FS) (hig : cfg.should_ignore n = false) :
    processItems (.dir n ld cs :: rest) cfg depth acc ws =
      match dirToJsonFS n (.dir n ld cs) cfg (depth + 1) with
      | .ok (child, cws) =>
        processItems rest cfg depth (dictSet acc n (.node child)) (ws ++ cws)
      | .error (.permissionError _) =>
        processItems rest cfg depth acc (ws ++ [permWarn n])
      | .error e => .error e := by
  rw [processItems.eq_def]
  simp only [FS.name, hig, Bool.false_eq_true, if_false]

theorem processItems_cons_other (cfg : TreesonConfig) (depth : Nat)
    (acc : JNode) (ws : List String) (n : String) (rest : List FS) :
    processItems (.other n :: rest) cfg depth acc ws =
      processItems rest cfg depth acc ws := by
  rw [processItems.eq_def]
  by_cases hig : cfg.should_ignore (FS.other n).name = true
  · simp [hig]
  · simp [hig]

theorem processItems_cons_statDenied (cfg : TreesonConfig) (depth : Nat)
    (acc : JNode) (ws : List String) (n : String) (rest : List FS)
    (hig : cfg.should_ignore n = false) :
    processItems (.statDenied n :: rest) cfg depth acc ws =
      processItems rest cfg depth acc (ws ++ [permWarn n]) := by
  rw [processItems.eq_def]
  simp [FS.name, hig]

theorem dirToJsonFS_statDenied (p : String) (n : String) (cfg : TreesonConfig)
    (depth : Nat) :
    dirToJsonFS p (.statDenied n) cfg depth = .error (.permissionError ("stat: " ++ p)) := by
  rw [dirToJsonFS.eq_def]

theorem dirToJsonFS_file (p : String) (n : String) (cfg : TreesonConfig)
    (depth : Nat) :
    dirToJsonFS p (.file n) cfg depth =
      .error (.treesonError ("Path is not a directory: " ++ p)) := by
  rw [dirToJsonFS.eq_def]

theorem dirToJsonFS_other (p : String) (n : String) (cfg : TreesonConfig)
    (depth : Nat) :
    dirToJsonFS p (.other n) cfg depth =
      .error (.treesonError ("Path is not a directory: " ++ p)) := by
  rw [dirToJsonFS.eq_def]

theorem dirToJsonFS_dir_depth (p : String) (n : String) (ld : Bool)
    (cs : List FS) (cfg : TreesonConfig) (depth : Nat)
    (h : cfg.depthExceeded depth = true) :
    dirToJsonFS p (.dir n ld cs) cfg depth = .ok ([("files", .list [])], []) := by
  rw [dirToJsonFS.eq_def]
  simp [h]

theorem dirToJsonFS_dir_listFail (p : String) (n : String) (ld : Bool)
    (cs : List FS) (cfg : TreesonConfig) (depth : Nat) (e : Err)
    (h : cfg.depthExceeded depth = false)
    (hl : listAndSort ld cs = .error e) :
    dirToJsonFS p (.dir n ld cs) cfg depth =
      .ok ([("files", .list [])], [permWarn p]) := by
  rw [dirToJsonFS.eq_def]
  simp only [h, Bool.false_eq_true, if_false]
  split
  · rfl
  · rename_i items hi
    rw [hl] at hi
    cases hi

theorem dirToJsonFS_dir_items (p : String) (n : String) (ld : Bool)
    (cs : List FS) (cfg : TreesonConfig) (depth : Nat) (items : List FS)
    (h : cfg.depthExceeded depth = false)
    (hl : listAndSort ld cs = .ok items) :
    dirToJsonFS p (.dir n ld cs) cfg depth =
      processItems items cfg depth [("files", .list [])] [] := by
  rw [dirToJsonFS.eq_def]
  simp only [h, Bool.false_eq_true, if_false]
  split
  · rename_i e hi
    rw [hl] at hi
    cases hi
  · rename_i items' hi
    rw [hl] at hi
    injection hi with hi
    rw [hi]

theorem appendFiles_keepsFiles (acc acc' : JNode) (n : String)
    (hf : dictMem "files" acc = true) (h : appendFiles acc n = .ok acc') :
    dictMem "files" acc' = true := by
  unfold appendFiles at h
  split at h
  · injection h with h
    subst h
    rw [dictMem_dictSet, hf]
    rfl
  · exact absurd h (by simp)
  · exact absurd h (by simp)

theorem processItems_keepsFiles :
    ∀ (items : List FS) (cfg : TreesonConfig) (depth : Nat) (acc : JNode)
      (ws : List String) (r : JNode) (w : List String),
      dictMem "files" acc = true →
      processItems items cfg depth acc ws = .ok (r, w) →
      dictMem "files" r = true := by
  intro items
  induction items with
  | nil =>
    intro cfg depth acc ws r w hf h
    rw [processItems_nil] at h
    injection h with h
    injection h with h1 h2
    subst h1
    exact hf
  | cons item rest ih =>
    intro cfg depth acc ws r w hf h
    cases item with
    | file n =>
      by_cases hig : cfg.should_ignore n = true
      · rw [processItems_cons_ignored _ _ _ _ _ _ hig] at h
        exact ih _ _ _ _ _ _ hf h
      · rw [processItems_cons_file _ _ _ _ _ _ (by simpa using hig)] at h
        cases ha : appendFiles acc n with
        | ok acc' =>
          rw [ha] at h
          exact ih _ _ _ _ _ _ (appendFiles_keepsFiles acc acc' n hf ha) h
        | error e =>
          rw [ha] at h
          cases h
    | dir n ld cs =>
      by_cases hig : cfg.should_ignore n = true
      · rw [processItems_cons_ignored _ _ _ _ _ _ hig] at h
        exact ih _ _ _ _ _ _ hf h
      · rw [processItems_cons_dir _ _ _ _ _ _ _ _ (by simpa using hig)] at h
        cases hrec : dirToJsonFS n (.dir n ld cs) cfg (depth + 1) with
        | ok pr =>
          obtain ⟨child, cws⟩ := pr
          rw [hrec] at h
          refine ih _ _ _ _ _ _ ?_ h
          rw [dictMem_dictSet, hf]
          rfl
        | error e =>
          rw [hrec] at h
          cases e <;> first
            | exact ih _ _ _ _ _ _ hf h
            | cases h
    | other n =>
      rw [processItems_cons_other] at h
      exact ih _ _ _ _ _ _ hf h
    | statDenied n =>
      by_cases hig : cfg.should_ignore n = true
      · rw [processItems_cons_ignored _ _ _ _ _ _ hig] at h
        exact ih _ _ _ _ _ _ hf h
      · rw [processItems_cons_statDenied _ _ _ _ _ _ (by simpa using hig)] at h
        exact ih _ _ _ _ _ _ hf h

theorem appendFiles_error (d : JNode) (n : String) (e : Err)
    (h : appendFiles d n = .error e) :
    (∃ m, e = .attributeError m) ∨ (∃ m, e = .keyError m) := by
  unfold appendFiles at h
  split at h
  · cases h
  · injection h with h
    exact Or.inl ⟨_, h.symm⟩
  · injection h with h
    exact Or.inr ⟨_, h.symm⟩

theorem dir_nonFatal :
    ∀ (p : String) (n : String) (ld : Bool) (cs : List FS)
      (cfg : TreesonConfig) (depth : Nat),
      nonFatal (dirToJsonFS p (.dir n ld cs) cfg depth) := by
  have H := dirToJsonFS.induct
    (fun p fs cfg depth => ∀ n ld cs, fs = FS.dir n ld cs →
      nonFatal (dirToJsonFS p fs cfg depth))
    (fun items cfg depth acc ws => nonFatal (processItems items cfg depth acc ws))
  intro p n ld cs cfg depth
  refine H ?_ ?_ ?_ ?_ ?_ ?_ ?_ ?_ ?_ ?_ ?_ ?_ ?_ ?_ ?_ p (.dir n ld cs) cfg depth
    n ld cs rfl
  · intro p cfg depth name n ld cs heq
    cases heq
  · intro p cfg depth name n ld cs heq
    cases heq
  · intro p cfg depth name n ld cs heq
    cases heq
  · intro p cfg depth name ld cs hd n' ld' cs' heq
    rw [dirToJsonFS_dir_depth _ _ _ _ _ _ hd]
    trivial
  · intro p cfg depth name ld cs hd e hl n' ld' cs' heq
    rw [dirToJsonFS_dir_listFail _ _ _ _ _ _ e (by simpa using hd) hl]
    trivial
  · intro p cfg depth name ld cs result hd items hl ih n' ld' cs' heq
    rw [dirToJsonFS_dir_items _ _ _ _ _ _ items (by simpa using hd) hl]
    exact ih
  · intro cfg depth acc ws
    rw [processItems_nil]
    trivial
  · intro cfg depth acc ws item rest hig ih
    rw [processItems_cons_ignored _ _ _ _ _ _ hig]
    exact ih
  · intro cfg depth acc ws rest n' acc' ha hig ih
    rw [processItems_cons_file _ _ _ _ _ _ (by simpa using hig)]
    rw [ha]
    exact ih
  · intro cfg depth acc ws rest n' e ha hig
    rw [processItems_cons_file _ _ _ _ _ _ (by simpa using hig)]
    rw [ha]
    rcases appendFiles_error _ _ _ ha with ⟨m, rfl⟩ | ⟨m, rfl⟩ <;> trivial
  · intro cfg depth acc ws rest n' ld' cs' child cws hrec hig ih1 ih2
    rw [processItems_cons_dir _ _ _ _ _ _ _ _ (by simpa using hig)]
    rw [hrec]
    exact ih2
  · intro cfg depth acc ws rest n' ld' cs' msg hrec hig ih1 ih2
    rw [processItems_cons_dir _ _ _ _ _ _ _ _ (by simpa using hig)]
    rw [hrec]
    exact ih2
  · intro cfg depth acc ws rest n' ld' cs' e he hrec hig ih1
    rw [processItems_cons_dir _ _ _ _ _ _ _ _ (by simpa using hig)]
    rw [hrec]
    have hnf := ih1 n' ld' cs' rfl
    rw [hrec] at hnf
    cases e with
    | permissionError m => exact (he m rfl).elim
    | attributeError m => trivial
    | keyError m => trivial
    | directoryNotFoundError m => exact hnf
    | treesonError m => exact hnf
    | typeError m => exact hnf
  · intro cfg depth acc ws rest n' hig ih
    rw [processItems_cons_other]
    exact ih
  · intro cfg depth acc ws rest n' hig ih
    rw [processItems_cons_statDenied _ _ _ _ _ _ (by simpa using hig)]
    exact ih

theorem processItems_mem :
    ∀ (items : List FS) (cfg : TreesonConfig) (depth : Nat) (acc : JNode)
      (ws : List String) (r : JNode) (w : List String),
      (∀ c, c ∈ items → FS.name c ≠ "files") →
      (items.map FS.name).Nodup →
      (∀ c, c ∈ items → dictMem (FS.name c) acc = false) →
      processItems items cfg depth acc ws = .ok (r, w) →
      ∀ nm, (nm ∈ topNames r ↔
        (nm ∈ topNames acc ∨ ∃ c, c ∈ items ∧ FS.name c = nm ∧
          cfg.should_ignore nm = false ∧ (c.isFileB = true ∨ c.isDirB = true))) := by
  intro items
  induction items with
  | nil =>
    intro cfg depth acc ws r w hn hnd hfresh h nm
    rw [processItems_nil] at h
    injection h with h
    injection h with h1 h2
    subst h1
    simp
  | cons item rest ih =>
    intro cfg depth acc ws r w hn hnd hfresh h nm
    have hn' : ∀ c, c ∈ rest → FS.name c ≠ "files" :=
      fun c hc => hn c (List.mem_cons_of_mem _ hc)
    have hnd2 := hnd
    rw [List.map_cons, List.nodup_cons] at hnd2
    have hnd0 : FS.name item ∉ rest.map FS.name := hnd2.1
    have hnd' : (rest.map FS.name).Nodup := hnd2.2
    have hname_ne : ∀ c, c ∈ rest → FS.name c ≠ FS.name item := by
      intro c hc he
      exact hnd0 (he ▸ List.mem_map_of_mem FS.name hc)
    by_cases hig : cfg.should_ignore (FS.name item) = true
    · rw [processItems_cons_ignored _ _ _ _ _ _ hig] at h
      have hiff := ih cfg depth acc ws r w hn' hnd'
        (fun c hc => hfresh c (List.mem_cons_of_mem _ hc)) h nm
      rw [hiff]
      constructor
      · rintro (hl | ⟨c, hc, h1, h2, h3⟩)
        · exact Or.inl hl
        · exact Or.inr ⟨c, List.mem_cons_of_mem _ hc, h1, h2, h3⟩
      · rintro (hl | ⟨c, hc, h1, h2, h3⟩)
        · exact Or.inl hl
        · rcases List.mem_cons.mp hc with rfl | hc
          · rw [h1] at hig
            rw [hig] at h2
            cases h2
          · exact Or.inr ⟨c, hc, h1, h2, h3⟩
    · have hig' : cfg.should_ignore (FS.name item) = false := by simpa using hig
      cases item with
      | file n =>
        have hig2 : cfg.should_ignore n = false := hig'
        rw [processItems_cons_file _ _ _ _ _ _ hig2] at h
        cases ha : appendFiles acc n with
        | error e => rw [ha] at h; cases h
        | ok acc' =>
          rw [ha] at h
          have hget : ∃ xs, dictGet? "files" acc = some (.list xs) ∧
              acc' = dictSet acc "files" (.list (xs ++ [n])) := by
            unfold appendFiles at ha
            split at ha
            · rename_i xs hg
              injection ha with ha
              exact ⟨xs, hg, ha.symm⟩
            · cases ha
            · cases ha
          obtain ⟨xs, hg, rfl⟩ := hget
          have hacc' : ∀ x, x ∈ topNames (dictSet acc "files" (.list (xs ++ [n]))) ↔
              x ∈ topNames acc ∨ x = n := by
            intro x
            rw [mem_topNames_dictSet_files acc xs [n] hg x]
            simp
          have hfresh' : ∀ c, c ∈ rest →
              dictMem (FS.name c) (dictSet acc "files" (.list (xs ++ [n]))) = false := by
            intro c hc
            rw [dictMem_dictSet]
            have h1 := hfresh c (List.mem_cons_of_mem _ hc)
            have h2 : ("files" == FS.name c) = false := by
              rw [beq_eq_false_iff_ne]
              exact fun he => hn' c hc he.symm
            rw [h1, h2]
            rfl
          have hiff := ih cfg depth _ ws r w hn' hnd' hfresh' h nm
          rw [hiff, hacc']
          constructor
          · rintro ((hl | rfl) | ⟨c, hc, h1, h2, h3⟩)
            · exact Or.inl hl
            · exact Or.inr ⟨.file nm, List.mem_cons_self _ _, rfl, hig2, Or.inl rfl⟩
            · exact Or.inr ⟨c, List.mem_cons_of_mem _ hc, h1, h2, h3⟩
          · rintro (hl | ⟨c, hc, h1, h2, h3⟩)
            · exact Or.inl (Or.inl hl)
            · rcases List.mem_cons.mp hc with rfl | hc
              · exact Or.inl (Or.inr h1.symm)
              · exact Or.inr ⟨c, hc, h1, h2, h3⟩
      | dir n ld cs =>
        have hig2 : cfg.should_ignore n = false := hig'
        rw [processItems_cons_dir _ _ _ _ _ _ _ _ hig2] at h
        cases hrec : dirToJsonFS n (.dir n ld cs) cfg (depth + 1) with
        | error e =>
          have hnf := dir_nonFatal n n ld cs cfg (depth + 1)
          rw [hrec] at h hnf
          cases e with
          | permissionError m => exact hnf.elim
          | attributeError m => cases h
          | keyError m => cases h
          | directoryNotFoundError m => cases h
          | treesonError m => cases h
          | typeError m => cases h
        | ok pr =>
          obtain ⟨child, cws⟩ := pr
          rw [hrec] at h
          have hfr : dictMem (FS.name (FS.dir n ld cs)) acc = false :=
            hfresh _ (List.mem_cons_self _ _)
          have hacc' : topNames (dictSet acc n (.node child)) =
              topNames acc ++ [n] := by
            have := topNames_dictSet_absent acc n (.node child) (by simpa using hfr)
            simpa [entryTopNames] using this
          have hfresh' : ∀ c, c ∈ rest →
              dictMem (FS.name c) (dictSet acc n (.node child)) = false := by
            intro c hc
            rw [dictMem_dictSet]
            have h1 := hfresh c (List.mem_cons_of_mem _ hc)
            have h2 : (n == FS.name c) = false := by
              rw [beq_eq_false_iff_ne]
              exact fun he => hname_ne c hc he.symm
            rw [h1, h2]
            rfl
          have hiff := ih cfg depth _ _ r w hn' hnd' hfresh' h nm
          rw [hiff, hacc']
          simp only [List.mem_append, List.mem_singleton]
          constructor
          · rintro ((hl | rfl) | ⟨c, hc, h1, h2, h3⟩)
            · exact Or.inl hl
            · exact Or.inr ⟨.dir nm ld cs, List.mem_cons_self _ _, rfl, hig2, Or.inr rfl⟩
            · exact Or.inr ⟨c, List.mem_cons_of_mem _ hc, h1, h2, h3⟩
          · rintro (hl | ⟨c, hc, h1, h2, h3⟩)
            · exact Or.inl (Or.inl hl)
            · rcases List.mem_cons.mp hc with rfl | hc
              · exact Or.inl (Or.inr h1.symm)
              · exact Or.inr ⟨c, hc, h1, h2, h3⟩
      | other n =>
        rw [processItems_cons_other] at h
        have hiff := ih cfg depth acc ws r w hn' hnd'
          (fun c hc => hfresh c (List.mem_cons_of_mem _ hc)) h nm
        rw [hiff]
        constructor
        · rintro (hl | ⟨c, hc, h1, h2, h3⟩)
          · exact Or.inl hl
          · exact Or.inr ⟨c, List.mem_cons_of_mem _ hc, h1, h2, h3⟩
        · rintro (hl | ⟨c, hc, h1, h2, h3⟩)
          · exact Or.inl hl
          · rcases List.mem_cons.mp hc with rfl | hc
            · rcases h3 with h3 | h3 <;> cases h3
            · exact Or.inr ⟨c, hc, h1, h2, h3⟩
      | statDenied n =>
        have hig2 : cfg.should_ignore n = false := hig'
        rw [processItems_cons_statDenied _ _ _ _ _ _ hig2] at h
        have hiff := ih cfg depth acc _ r w hn' hnd'
          (fun c hc => hfresh c (List.mem_cons_of_mem _ hc)) h nm
        rw [hiff]
        constructor
        · rintro (hl | ⟨c, hc, h1, h2, h3⟩)
          · exact Or.inl hl
          · exact Or.inr ⟨c, List.mem_cons_of_mem _ hc, h1, h2, h3⟩
        · rintro (hl | ⟨c, hc, h1, h2, h3⟩)
          · exact Or.inl hl
          · rcases List.mem_cons.mp hc with rfl | hc
            · rcases h3 with h3 | h3 <;> cases h3
            · exact Or.inr ⟨c, hc, h1, h2, h3⟩

/-!  ## Builder lemmas -/

theorem namesList_cons (kv : String × JVal) (rest : List (String × JVal)) :
    namesList (kv :: rest) = entryNames kv.1 kv.2 ++ namesList rest := by
  obtain ⟨k, v⟩ := kv
  cases v <;> simp [namesList, entryNames]

theorem mem_namesList_dictSet (d : JNode) (k : String) (v : JVal) (nm : String)
    (h : nm ∈ namesList (dictSet d k v)) :
    nm ∈ namesList d ∨ nm ∈ entryNames k v := by
  induction d with
  | nil =>
    simp only [dictSet] at h
    rw [namesList_cons] at h
    simp only [namesList, List.append_nil] at h
    exact Or.inr h
  | cons kv rest ih =>
    obtain ⟨k', v'⟩ := kv
    simp only [dictSet] at h
    split at h
    · rename_i he
      rw [namesList_cons] at h
      rcases List.mem_append.mp h with h | h
      · exact Or.inr h
      · rw [namesList_cons]
        exact Or.inl (List.mem_append.mpr (Or.inr h))
    · rw [namesList_cons] at h
      rcases List.mem_append.mp h with h | h
      · rw [namesList_cons]
        exact Or.inl (List.mem_append.mpr (Or.inl h))
      · rcases ih h with h | h
        · rw [namesList_cons]
          exact Or.inl (List.mem_append.mpr (Or.inr h))
        · exact Or.inr h

theorem mem_namesList_of_get (d : JNode) (k : String) (v : JVal) (nm : String)
    (hg : dictGet? k d = some v) (h : nm ∈ entryNames k v) :
    nm ∈ namesList d := by
  induction d with
  | nil => simp [dictGet?] at hg
  | cons kv rest ih =>
    obtain ⟨k', v'⟩ := kv
    by_cases he : (k' == k) = true
    · simp only [dictGet?, List.find?_cons, he, Option.map] at hg
      injection hg with hg
      subst hg
      simp only [beq_iff_eq] at he
      subst he
      rw [namesList_cons]
      exact List.mem_append.mpr (Or.inl h)
    · have he' : (k' == k) = false := by simpa using he
      simp only [dictGet?, List.find?_cons, he'] at hg
      rw [namesList_cons]
      refine List.mem_append.mpr (Or.inr (ih ?_))
      simpa [dictGet?] using hg

theorem mem_names_dictSetGet (d : JNode) (k : String) (dflt : JVal) :
    ∀ nm, nm ∈ namesList (dictSetGet d k dflt).1 →
      nm ∈ namesList d ∨ nm ∈ entryNames k dflt := by
  intro nm h
  unfold dictSetGet at h
  split at h
  · exact Or.inl h
  · exact mem_namesList_dictSet d k dflt nm h

theorem dictGet?_dictSet_self (d : JNode) (k : String) (v : JVal) :
    dictGet? k (dictSet d k v) = some v := by
  induction d with
  | nil => simp [dictGet?, dictSet]
  | cons kv rest ih =>
    obtain ⟨k', v'⟩ := kv
    by_cases he : (k' == k) = true
    · simp [dictSet, he, dictGet?]
    · have he' : (k' == k) = false := by simpa using he
      simp only [dictSet, he', Bool.false_eq_true, if_false]
      simp only [dictGet?, List.find?_cons, he']
      simpa [dictGet?] using ih

theorem get_dictSetGet (d : JNode) (k : String) (dflt : JVal) :
    dictGet? k (dictSetGet d k dflt).1 = some (dictSetGet d k dflt).2 := by
  unfold dictSetGet
  split
  · rename_i v hv
    exact hv
  · exact dictGet?_dictSet_self d k dflt

theorem mem_entryNames_of_names (k : String) (v : JVal) (nm : String)
    (h : nm ∈ JVal.names v) : nm ∈ entryNames k v := by
  cases v with
  | list xs => exact h
  | node d => exact List.mem_cons_of_mem _ h

theorem insertVal_names :
    ∀ (parts : List String) (v : JVal) (ty : String) (v' : JVal),
      insertVal v parts ty = .ok v' →
      ∀ nm, nm ∈ JVal.names v' → nm ∈ JVal.names v ∨ nm ∈ parts := by
  intro parts
  induction parts with
  | nil =>
    intro v ty v' h nm hm
    simp only [insertVal] at h
    injection h with h
    subst h
    exact Or.inl hm
  | cons p ps ih =>
    intro v ty v' h nm hm
    cases ps with
    | nil =>
      cases v with
      | list xs =>
        simp only [insertVal] at h
        by_cases hb : (ty == "blob") = true
        · rw [if_pos hb] at h
          cases h
        · rw [if_neg (by simpa using hb)] at h
          by_cases ht : (ty == "tree") = true
          · rw [if_pos ht] at h
            by_cases hc : xs.contains p
            · rw [if_pos hc] at h
              injection h with h
              subst h
              exact Or.inl hm
            · rw [if_neg hc] at h
              cases h
          · rw [if_neg (by simpa using ht)] at h
            injection h with h
            subst h
            exact Or.inl hm
      | node d =>
        simp only [insertVal] at h
        by_cases hb : (ty == "blob") = true
        · rw [if_pos hb] at h
          cases hsg : dictSetGet d "files" (.list []) with
          | mk d1 vv =>
            rw [hsg] at h
            cases vv with
            | node dd => cases h
            | list xs =>
              injection h with h
              subst h
              simp only [JVal.names] at hm ⊢
              rcases mem_namesList_dictSet d1 "files" (.list (xs ++ [p])) nm hm with
                hm | hm
              · have := mem_names_dictSetGet d "files" (.list []) nm
                rw [hsg] at this
                rcases this hm with hd | hd
                · exact Or.inl hd
                · simp [entryNames] at hd
              · simp only [entryNames, List.mem_append, List.mem_singleton] at hm
                rcases hm with hm | rfl
                · have hget := get_dictSetGet d "files" (.list [])
                  rw [hsg] at hget
                  have h1 : nm ∈ namesList d1 :=
                    mem_namesList_of_get d1 "files" (.list xs) nm hget hm
                  have := mem_names_dictSetGet d "files" (.list []) nm
                  rw [hsg] at this
                  rcases this h1 with hd | hd
                  · exact Or.inl hd
                  · simp [entryNames] at hd
                · exact Or.inr (List.mem_singleton.mpr rfl)
        · rw [if_neg (by simpa using hb)] at h
          by_cases ht : (ty == "tree") = true
          · rw [if_pos ht] at h
            by_cases hc : dictMem p d = true
            · rw [if_pos hc] at h
              injection h with h
              subst h
              exact Or.inl hm
            · rw [if_neg (by simpa using hc)] at h
              injection h with h
              subst h
              simp only [JVal.names] at hm ⊢
              rcases mem_namesList_dictSet d p (.node [("files", .list [])]) nm hm with
                hm | hm
              · exact Or.inl hm
              · simp only [entryNames] at hm
                rcases List.mem_cons.mp hm with rfl | hm
                · exact Or.inr (List.mem_singleton.mpr rfl)
                · simp [namesList] at hm
          · rw [if_neg (by simpa using ht)] at h
            injection h with h
            subst h
            exact Or.inl hm
    | cons p2 rest =>
      cases v with
      | list xs =>
        simp only [insertVal] at h
        cases h
      | node d =>
        simp only [insertVal] at h
        cases hsg : dictSetGet d p (.node [("files", .list [])]) with
        | mk d1 vch =>
          rw [hsg] at h
          cases hrec : insertVal vch (p2 :: rest) ty with
          | error e => rw [hrec] at h; cases h
          | ok v2 =>
            rw [hrec] at h
            injection h with h
            subst h
            simp only [JVal.names] at hm ⊢
            rcases mem_namesList_dictSet d1 p v2 nm hm with hm | hm
            · have := mem_names_dictSetGet d p (.node [("files", .list [])]) nm
              rw [hsg] at this
              rcases this hm with hd | hd
              · exact Or.inl hd
              · simp only [entryNames] at hd
                rcases List.mem_cons.mp hd with rfl | hd
                · exact Or.inr (List.mem_cons_self _ _)
                · simp [namesList] at hd
            · have hcase : nm = p ∨ nm ∈ JVal.names v2 := by
                cases v2 with
                | list ys => exact Or.inr hm
                | node dd =>
                  simp only [entryNames] at hm
                  rcases List.mem_cons.mp hm with rfl | hm
                  · exact Or.inl rfl
                  · exact Or.inr hm
              rcases hcase with rfl | hm2
              · exact Or.inr (List.mem_cons_self _ _)
              rcases ih vch ty v2 hrec nm hm2 with hv | hv
              · have hv' := mem_entryNames_of_names p vch nm hv
                have hget := get_dictSetGet d p (.node [("files", .list [])])
                rw [hsg] at hget
                have h1 : nm ∈ namesList d1 :=
                  mem_namesList_of_get d1 p vch nm hget hv'
                have := mem_names_dictSetGet d p (.node [("files", .list [])]) nm
                rw [hsg] at this
                rcases this h1 with hd | hd
                · exact Or.inl hd
                · simp only [entryNames] at hd
                  rcases List.mem_cons.mp hd with rfl | hd
                  · exact Or.inr (List.mem_cons_self _ _)
                  · simp [namesList] at hd
              · exact Or.inr (List.mem_cons_of_mem _ hv)

theorem ghStep_names (cfg : TreesonConfig) (acc : JNode) (e : GHEntry)
    (acc' : JNode) (h : ghStep cfg acc e = .ok acc') :
    ∀ nm, nm ∈ namesList acc' → nm ∈ namesList acc ∨
      cfg.should_ignore nm = false := by
  intro nm hm
  unfold ghStep at h
  by_cases hany : (splitPath e.path).any (fun part => cfg.should_ignore part) = true
  · rw [if_pos hany] at h
    injection h with h
    subst h
    exact Or.inl hm
  · rw [if_neg hany] at h
    cases hins : insertVal (.node acc) (splitPath e.path) e.type with
    | error er => rw [hins] at h; cases h
    | ok v' =>
      rw [hins] at h
      cases v' with
      | list ys =>
        injection h with h
        subst h
        exact Or.inl hm
      | node d =>
        injection h with h
        subst h
        have := insertVal_names (splitPath e.path) (.node acc) e.type (.node d)
          hins nm hm
        rcases this with hv | hv
        · exact Or.inl hv
        · right
          have := List.any_eq_false.mp (by simpa using hany)
          simpa using this nm hv

theorem foldl_ghStep_names (cfg : TreesonConfig) :
    ∀ (tree : List GHEntry) (acc root : JNode),
      (∀ nm, nm ∈ namesList acc → cfg.should_ignore nm = false) →
      List.foldlM (ghStep cfg) acc tree = .ok root →
      ∀ nm, nm ∈ namesList root → cfg.should_ignore nm = false := by
  intro tree
  induction tree with
  | nil =>
    intro acc root hinv h
    simp only [List.foldlM_nil] at h
    injection h with h
    subst h
    exact hinv
  | cons e rest ih =>
    intro acc root hinv h
    rw [List.foldlM_cons] at h
    cases hstep : ghStep cfg acc e with
    | error er =>
      rw [hstep] at h
      cases h
    | ok acc' =>
      rw [hstep] at h
      refine ih acc' root ?_ h
      intro nm hm
      rcases ghStep_names cfg acc e acc' hstep nm hm with hv | hv
      · exact hinv nm hv
      · exact hv

/-!  ## Claims -/

/-- C1: for every accessible directory the traversal emits children in a
deterministic order — all subdirectories first, then all files, each group
sorted case-insensitively by name (the sorted item list is a permutation
of the children that is pairwise ordered by the sort key
`(not is_dir, name.lower())`); in particular, for a directory containing
files `B.txt`, `a.txt` and subdirectories `Z`, `y`, the processing order
is `y`, `Z`, then `a.txt`, `B.txt`. -/
theorem claim_C1 :
    (∀ (ld : Bool) (cs items : List FS), listAndSort ld cs = .ok items →
      items.Pairwise (fun a b => fsLe a b = true) ∧ List.Perm items cs) ∧
    dir_to_json "root" (some (.dir "root" false
        [.file "B.txt", .file "a.txt", .dir "Z" false [], .dir "y" false []]))
      defaultConfig 0 =
      .ok ([("files", .list ["a.txt", "B.txt"]),
            ("y", .node [("files", .list [])]),
            ("Z", .node [("files", .list [])])], []) := by
  constructor
  · intro ld cs items h
    unfold listAndSort at h
    split at h
    · cases h
    · split at h
      · cases h
      · injection h with h
        subst h
        exact ⟨pairwise_insertionSortB fsLe fsLe_total fsLe_trans cs,
          perm_insertionSortB fsLe cs⟩
  · simp [dir_to_json, dirToJsonFS, processItems, listAndSort, insertionSortB,
      insertSorted, appendFiles, dictSet, dictGet?, defaultConfig, DEFAULT_IGNORES,
      TreesonConfig.should_ignore, TreesonConfig.depthExceeded, FS.name,
      FS.isStatDenied, strStartsWith, fsLe, keyLe, FS.sortKey, strLower, strLe,
      charListLt, FS.isDirB, permWarn]

/-- Witness for C1 at a concrete directory listing. -/
theorem claim_C1_witness :
    ([FS.dir "y" false [], FS.dir "Z" false [], FS.file "a.txt",
      FS.file "B.txt"].Pairwise (fun a b => fsLe a b = true)) ∧
    List.Perm
      [FS.dir "y" false [], FS.dir "Z" false [], FS.file "a.txt", FS.file "B.txt"]
      [FS.file "B.txt", FS.file "a.txt", FS.dir "Z" false [], FS.dir "y" false []] :=
  claim_C1.1 false
    [FS.file "B.txt", FS.file "a.txt", FS.dir "Z" false [], FS.dir "y" false []]
    [FS.dir "y" false [], FS.dir "Z" false [], FS.file "a.txt", FS.file "B.txt"]
    rfl

/-- C2: for every existing directory and any configured `max_depth`, when
the current depth is at least `max_depth` the traversal returns exactly
`{"files": []}` (and emits no warning), before listing any children —
regardless of the directory's content or even a denied listing. -/
theorem claim_C2 :
    ∀ (p n : String) (ld : Bool) (cs : List FS) (cfg : TreesonConfig)
      (depth : Nat) (m : Int),
      cfg.max_depth = some m → (depth : Int) ≥ m →
      dir_to_json p (some (.dir n ld cs)) cfg depth =
        .ok ([("files", .list [])], []) := by
  intro p n ld cs cfg depth m hm hd
  unfold dir_to_json
  refine dirToJsonFS_dir_depth p n ld cs cfg depth ?_
  unfold TreesonConfig.depthExceeded
  rw [hm]
  exact decide_eq_true hd

/-- Witness for C2: `max_depth = 0` on a non-empty, even unreadable
directory still yields exactly the empty node. -/
theorem claim_C2_witness :
    dir_to_json "d" (some (.dir "d" true [.file "x"]))
      ⟨DEFAULT_IGNORES, false, some 0⟩ 0 = .ok ([("files", .list [])], []) :=
  claim_C2 "d" "d" true [.file "x"] ⟨DEFAULT_IGNORES, false, some 0⟩ 0 0 rfl
    (by decide)

/-- C3 counterexample: the path-tree builder's root, unlike the traversal
engine's, can lack the `"files"` key — the empty flat listing yields the
empty node `{}`, refuting the claim that both components always emit a
root with a `"files"` key. -/
theorem claim_C3_counterexample :
    github_repo_to_json [] defaultConfig = .ok [] ∧
      dictMem "files" ([] : JNode) = false :=
  ⟨rfl, rfl⟩

/-- C3 (amended): every node returned by `dir_to_json` has a `"files"`
key, even when the target is fully excluded by filters or the depth
limit; the builder, by contrast, starts from `{}` and adds `"files"`
lazily, so its root can lack the key (e.g. on the empty listing). -/
theorem claim_C3 :
    (∀ (p : String) (t : Option FS) (cfg : TreesonConfig) (depth : Nat)
      (r : JNode) (w : List String),
      dir_to_json p t cfg depth = .ok (r, w) → dictMem "files" r = true) ∧
    github_repo_to_json [] defaultConfig = .ok [] := by
  constructor
  · intro p t cfg depth r w h
    cases t with
    | none => unfold dir_to_json at h; cases h
    | some fs =>
      cases fs with
      | statDenied nn =>
        replace h : dirToJsonFS p (.statDenied nn) cfg depth = .ok (r, w) := h
        rw [dirToJsonFS_statDenied] at h
        cases h
      | file nn =>
        replace h : dirToJsonFS p (.file nn) cfg depth = .ok (r, w) := h
        rw [dirToJsonFS_file] at h
        cases h
      | other nn =>
        replace h : dirToJsonFS p (.other nn) cfg depth = .ok (r, w) := h
        rw [dirToJsonFS_other] at h
        cases h
      | dir nn ld cs =>
        replace h : dirToJsonFS p (.dir nn ld cs) cfg depth = .ok (r, w) := h
        by_cases hd : cfg.depthExceeded depth = true
        · rw [dirToJsonFS_dir_depth _ _ _ _ _ _ hd] at h
          injection h with h
          injection h with h1 h2
          subst h1
          rfl
        · cases hl : listAndSort ld cs with
          | error e =>
            rw [dirToJsonFS_dir_listFail _ _ _ _ _ _ e (by simpa using hd) hl] at h
            injection h with h
            injection h with h1 h2
            subst h1
            rfl
          | ok items =>
            rw [dirToJsonFS_dir_items _ _ _ _ _ _ items (by simpa using hd) hl] at h
            exact processItems_keepsFiles items cfg depth [("files", .list [])] [] r w rfl h
  · rfl

/-- Witness for C3's amended universal part at a concrete call. -/
theorem claim_C3_witness :
    dictMem "files" [("files", JVal.list [])] = true :=
  claim_C3.1 "d" (some (.dir "d" false [])) defaultConfig 0
    [("files", .list [])] [] (by
      simp [dir_to_json, dirToJsonFS, processItems, listAndSort, insertionSortB,
        defaultConfig, TreesonConfig.depthExceeded])

/-- C7 (code bug): with children `a.txt`, `b.txt` readable and `c`
stat-denied, the whole listing is aborted — the sort key's `is_dir()`
call raises `PermissionError` before the per-child handler can run — so
the node comes back empty with a directory-level warning instead of
listing the two readable siblings. -/
theorem claim_C7 :
    dir_to_json "d" (some (.dir "d" false
        [.file "a.txt", .file "b.txt", .statDenied "c"])) defaultConfig 0 =
      .ok ([("files", .list [])], [permWarn "d"]) := by
  simp [dir_to_json, dirToJsonFS, processItems, listAndSort, insertionSortB,
    insertSorted, appendFiles, dictSet, dictGet?, defaultConfig, DEFAULT_IGNORES,
    TreesonConfig.should_ignore, TreesonConfig.depthExceeded, FS.name,
    FS.isStatDenied, strStartsWith, fsLe, keyLe, FS.sortKey, strLower, strLe,
    charListLt, FS.isDirB, permWarn]

/-- C9 (code bug): a subdirectory literally named `files` overwrites the
`"files"` list in the result dict; appending the sibling file `a.txt`
then calls `.append` on a dict and the traversal aborts with
`AttributeError` instead of returning a node whose file count matches the
disk. -/
theorem claim_C9 :
    dir_to_json "r" (some (.dir "r" false
        [.dir "files" false [], .file "a.txt"])) defaultConfig 0 =
      .error (.attributeError "dict object has no attribute append") := by
  simp [dir_to_json, dirToJsonFS, processItems, listAndSort, insertionSortB,
    insertSorted, appendFiles, dictSet, dictGet?, defaultConfig, DEFAULT_IGNORES,
    TreesonConfig.should_ignore, TreesonConfig.depthExceeded, FS.name,
    FS.isStatDenied, strStartsWith, fsLe, keyLe, FS.sortKey, strLower, strLe,
    charListLt, FS.isDirB, permWarn]

/-- C10: a child that is neither a regular file nor a directory is
silently omitted — processing it is identical to not having it at all (no
entry, no warning); concretely, a directory with file `a` and socket `s`
yields `{"files": ["a"]}` with an empty diagnostic stream. -/
theorem claim_C10 :
    (∀ (n : String) (rest : List FS) (cfg : TreesonConfig) (depth : Nat)
      (acc : JNode) (ws : List String),
      processItems (.other n :: rest) cfg depth acc ws =
        processItems rest cfg depth acc ws) ∧
    dir_to_json "d" (some (.dir "d" false [.file "a", .other "s"]))
      defaultConfig 0 = .ok ([("files", .list ["a"])], []) := by
  constructor
  · intro n rest cfg depth acc ws
    exact processItems_cons_other cfg depth acc ws n rest
  · simp [dir_to_json, dirToJsonFS, processItems, listAndSort, insertionSortB,
      insertSorted, appendFiles, dictSet, dictGet?, defaultConfig, DEFAULT_IGNORES,
      TreesonConfig.should_ignore, TreesonConfig.depthExceeded, FS.name,
      FS.isStatDenied, strStartsWith, fsLe, keyLe, FS.sortKey, strLower, strLe,
      charListLt, FS.isDirB, permWarn]

theorem nodup_map_inj {α β : Type} (l : List α) (f : α → β)
    (h : (l.map f).Nodup) :
    ∀ a, a ∈ l → ∀ b, b ∈ l → f a = f b → a = b := by
  induction l with
  | nil => intro a ha; cases ha
  | cons x t ih =>
    rw [List.map_cons, List.nodup_cons] at h
    intro a ha b hb he
    rcases List.mem_cons.mp ha with ha | ha
    · rcases List.mem_cons.mp hb with hb | hb
      · exact ha.trans hb.symm
      · have hx : f x ∈ t.map f := by
          rw [← ha, he]
          exact List.mem_map_of_mem f hb
        exact absurd hx h.1
    · rcases List.mem_cons.mp hb with hb | hb
      · have hx : f x ∈ t.map f := by
          rw [← hb, ← he]
          exact List.mem_map_of_mem f ha
        exact absurd hx h.1
      · exact ih h.2 a ha b hb he

/-- C4 counterexample: an entry that is neither hidden nor in the ignore
set — the socket-like child `s` under the default configuration — still
leaves no trace in the output, refuting the claimed "skips if and only
if" characterisation. -/
theorem claim_C4_counterexample :
    dir_to_json "d" (some (.dir "d" false [.other "s"])) defaultConfig 0 =
        .ok ([("files", .list [])], []) ∧
      defaultConfig.should_ignore "s" = false := by
  constructor
  · simp [dir_to_json, dirToJsonFS, processItems, listAndSort, insertionSortB,
      insertSorted, appendFiles, dictSet, dictGet?, defaultConfig, DEFAULT_IGNORES,
      TreesonConfig.should_ignore, TreesonConfig.depthExceeded, FS.name,
      FS.isStatDenied, strStartsWith, fsLe, keyLe, FS.sortKey, strLower, strLe,
      charListLt, FS.isDirB, permWarn]
  · decide

/-- C4 (amended): the ignore predicate holds exactly when the name is
dot-prefixed with hidden files excluded, or exactly matches an ignore
pattern; and in a directory whose listing succeeds (not permission-denied,
within the depth limit, children stat-accessible, no entry named
`files`), a child leaves a trace in the node if and only if it is not
ignored AND is a regular file or directory — entries of any other kind
are omitted even when not ignored. -/
theorem claim_C4 :
    (∀ (cfg : TreesonConfig) (nm : String),
      cfg.should_ignore nm = true ↔
        ((cfg.include_hidden = false ∧ strStartsWith nm "." = true) ∨
          nm ∈ cfg.ignores)) ∧
    (∀ (p n : String) (cs : List FS) (cfg : TreesonConfig) (depth : Nat)
      (r : JNode) (w : List String),
      (∀ c, c ∈ cs → FS.name c ≠ "files") →
      (cs.map FS.name).Nodup →
      (∀ c, c ∈ cs → c.isStatDenied = false) →
      cfg.depthExceeded depth = false →
      dir_to_json p (some (.dir n false cs)) cfg depth = .ok (r, w) →
      ∀ c, c ∈ cs →
        (FS.name c ∈ topNames r ↔
          (cfg.should_ignore (FS.name c) = false ∧
            (c.isFileB = true ∨ c.isDirB = true)))) := by
  constructor
  · intro cfg nm
    unfold TreesonConfig.should_ignore
    by_cases h1 : (!cfg.include_hidden && strStartsWith nm ".") = true
    · rw [if_pos h1]
      simp only [Bool.and_eq_true, Bool.not_eq_true'] at h1
      simp [h1.1, h1.2]
    · rw [if_neg h1]
      simp only [Bool.and_eq_true, Bool.not_eq_true'] at h1
      constructor
      · intro hc
        exact Or.inr (by simpa using hc)
      · rintro (⟨ha, hb⟩ | hc)
        · exact absurd ⟨ha, hb⟩ h1
        · simpa using hc
  · intro p n cs cfg depth r w hn hnd hsd hde h c hc
    replace h : dirToJsonFS p (.dir n false cs) cfg depth = .ok (r, w) := h
    have hany : cs.any FS.isStatDenied = false := by
      rw [List.any_eq_false]
      intro c' hc'
      simp [hsd c' hc']
    have hl : listAndSort false cs = .ok (insertionSortB fsLe cs) := by
      unfold listAndSort
      rw [if_neg (by simp), if_neg (by simp [hany])]
    rw [dirToJsonFS_dir_items _ _ _ _ _ _ _ hde hl] at h
    have hperm := perm_insertionSortB fsLe cs
    have hmem : ∀ x, x ∈ insertionSortB fsLe cs ↔ x ∈ cs :=
      fun x => hperm.mem_iff
    have hiff := processItems_mem (insertionSortB fsLe cs) cfg depth
      [("files", .list [])] [] r w
      (fun c' hc' => hn c' (hmem c' |>.mp hc'))
      (((hperm.map FS.name).nodup_iff).mpr hnd)
      (fun c' hc' => by
        simp only [dictMem, List.any_cons, List.any_nil, Bool.or_false]
        rw [beq_eq_false_iff_ne]
        exact fun he => hn c' (hmem c' |>.mp hc') he.symm)
      h (FS.name c)
    rw [hiff]
    have htop : topNames [("files", JVal.list [])] = [] := rfl
    rw [htop]
    simp only [List.not_mem_nil, false_or]
    constructor
    · rintro ⟨c', hc', he, hig, hkind⟩
      have : c' = c := nodup_map_inj cs FS.name hnd c' (hmem c' |>.mp hc') c hc he
      subst this
      exact ⟨he ▸ hig, hkind⟩
    · rintro ⟨hig, hkind⟩
      exact ⟨c, (hmem c).mpr hc, rfl, hig, hkind⟩

/-- Witness for C4's amended traversal part at a concrete directory. -/
theorem claim_C4_witness :
    FS.name (.file "a.txt") ∈ topNames [("files", JVal.list ["a.txt"])] ↔
      (defaultConfig.should_ignore (FS.name (.file "a.txt")) = false ∧
        ((FS.file "a.txt").isFileB = true ∨ (FS.file "a.txt").isDirB = true)) :=
  claim_C4.2 "d" "d" [.file "a.txt", .other "s"] defaultConfig 0
    [("files", .list ["a.txt"])] []
    (by intro c hc; rcases List.mem_cons.mp hc with rfl | hc
        · decide
        · rcases List.mem_cons.mp hc with rfl | hc
          · decide
          · cases hc)
    (by decide)
    (by intro c hc; rcases List.mem_cons.mp hc with rfl | hc
        · rfl
        · rcases List.mem_cons.mp hc with rfl | hc
          · rfl
          · cases hc)
    rfl
    (by simp [dir_to_json, dirToJsonFS, processItems, listAndSort, insertionSortB,
      insertSorted, appendFiles, dictSet, dictGet?, defaultConfig, DEFAULT_IGNORES,
      TreesonConfig.should_ignore, TreesonConfig.depthExceeded, FS.name,
      FS.isStatDenied, strStartsWith, fsLe, keyLe, FS.sortKey, strLower, strLe,
      charListLt, FS.isDirB, permWarn])
    (.file "a.txt") (List.mem_cons_self _ _)

/-- C5: the path-tree builder discards an entire entry whenever any of
its slash-separated segments matches the ignore predicate (the fold step
leaves the root unchanged), and consequently a name matching a configured
ignore pattern never appears anywhere in the builder's output — neither
as a file name, nor as a directory key, nor as an intermediate path
segment. -/
theorem claim_C5 :
    (∀ (cfg : TreesonConfig) (root : JNode) (nd : GHEntry),
      (splitPath nd.path).any (fun part => cfg.should_ignore part) = true →
      ghStep cfg root nd = .ok root) ∧
    (∀ (tree : List GHEntry) (cfg : TreesonConfig) (root : JNode),
      github_repo_to_json tree cfg = .ok root →
      ∀ nm, nm ∈ namesList root → cfg.should_ignore nm = false) := by
  constructor
  · intro cfg root nd h
    unfold ghStep
    rw [if_pos h]
  · intro tree cfg root h nm hm
    refine foldl_ghStep_names cfg tree [] root ?_ h nm hm
    intro x hx
    simp [namesList] at hx

/-- Witness for C5 on a concrete listing. -/
theorem claim_C5_witness : defaultConfig.should_ignore "src" = false :=
  claim_C5.2 [⟨"src/app.py", "blob"⟩] defaultConfig
    [("src", .node [("files", .list ["app.py"])])] rfl "src"
    (by simp [namesList])

/-- C6: an explicit tree entry whose key already exists in the current
node is a no-op — it never overwrites the existing child — and feeding
`[{"path":"src/main.go","type":"blob"}, {"path":"src","type":"tree"}]`
in that order yields `{"src": {"files": ["main.go"]}}`. -/
theorem claim_C6 :
    (∀ (d : JNode) (k : String), dictMem k d = true →
      insertVal (.node d) [k] "tree" = .ok (.node d)) ∧
    github_repo_to_json [⟨"src/main.go", "blob"⟩, ⟨"src", "tree"⟩]
        defaultConfig =
      .ok [("src", .node [("files", .list ["main.go"])])] := by
  constructor
  · intro d k h
    simp only [insertVal]
    rw [if_neg (by decide), if_pos (by decide), if_pos h]
  · rfl

/-- Witness for C6's no-overwrite rule at a concrete node. -/
theorem claim_C6_witness :
    insertVal (.node [("x", .node [("files", .list ["y"])])]) ["x"] "tree" =
      .ok (.node [("x", .node [("files", .list ["y"])])]) :=
  claim_C6.1 [("x", .node [("files", .list ["y"])])] "x" rfl

/-- C8: `dir_to_json` fails with the typed `DirectoryNotFoundError`
exactly when the target does not exist, fails with the base
`TreesonError` ("Path is not a directory") exactly when the target is a
stat-accessible non-directory, and the two failure kinds are distinct
values; a directory target never produces either failure. -/
theorem claim_C8 :
    ∀ (p : String) (t : Option FS) (cfg : TreesonConfig) (depth : Nat),
      ((∃ m, dir_to_json p t cfg depth = .error (.directoryNotFoundError m)) ↔
        t = none) ∧
      ((∃ m, dir_to_json p t cfg depth = .error (.treesonError m)) ↔
        (∃ n, t = some (.file n) ∨ t = some (.other n))) ∧
      (∀ m m', Err.directoryNotFoundError m ≠ Err.treesonError m') := by
  intro p t cfg depth
  refine ⟨?_, ?_, fun m m' h => by cases h⟩
  · cases t with
    | none =>
      refine ⟨fun _ => rfl, fun _ => ⟨"Directory not found: " ++ p, rfl⟩⟩
    | some fs =>
      constructor
      · rintro ⟨m, hm⟩
        cases fs with
        | statDenied nn =>
          replace hm : dirToJsonFS p (.statDenied nn) cfg depth =
              .error (.directoryNotFoundError m) := hm
          rw [dirToJsonFS_statDenied] at hm
          injection hm with hm
          cases hm
        | file nn =>
          replace hm : dirToJsonFS p (.file nn) cfg depth =
              .error (.directoryNotFoundError m) := hm
          rw [dirToJsonFS_file] at hm
          injection hm with hm
          cases hm
        | other nn =>
          replace hm : dirToJsonFS p (.other nn) cfg depth =
              .error (.directoryNotFoundError m) := hm
          rw [dirToJsonFS_other] at hm
          injection hm with hm
          cases hm
        | dir nn ld cs =>
          have hnf := dir_nonFatal p nn ld cs cfg depth
          replace hm : dirToJsonFS p (.dir nn ld cs) cfg depth =
              .error (.directoryNotFoundError m) := hm
          rw [hm] at hnf
          exact hnf.elim
      · intro hn
        cases hn
  · cases t with
    | none =>
      constructor
      · rintro ⟨m, hm⟩
        replace hm : Except.error (α := JNode × List String)
            (Err.directoryNotFoundError ("Directory not found: " ++ p)) =
            .error (.treesonError m) := hm
        injection hm with hm
        cases hm
      · rintro ⟨n, h | h⟩ <;> cases h
    | some fs =>
      cases fs with
      | file nn =>
        refine ⟨fun _ => ⟨nn, Or.inl rfl⟩, fun _ => ⟨"Path is not a directory: " ++ p, ?_⟩⟩
        show dirToJsonFS p (.file nn) cfg depth = _
        rw [dirToJsonFS_file]
      | other nn =>
        refine ⟨fun _ => ⟨nn, Or.inr rfl⟩, fun _ => ⟨"Path is not a directory: " ++ p, ?_⟩⟩
        show dirToJsonFS p (.other nn) cfg depth = _
        rw [dirToJsonFS_other]
      | statDenied nn =>
        constructor
        · rintro ⟨m, hm⟩
          replace hm : dirToJsonFS p (.statDenied nn) cfg depth =
              .error (.treesonError m) := hm
          rw [dirToJsonFS_statDenied] at hm
          injection hm with hm
          cases hm
        · rintro ⟨n, h | h⟩ <;> (injection h with h; cases h)
      | dir nn ld cs =>
        constructor
        · rintro ⟨m, hm⟩
          have hnf := dir_nonFatal p nn ld cs cfg depth
          replace hm : dirToJsonFS p (.dir nn ld cs) cfg depth =
              .error (.treesonError m) := hm
          rw [hm] at hnf
          exact hnf.elim
        · rintro ⟨n, h | h⟩ <;> (injection h with h; cases h)

/-- Witness for C8: a regular-file target fails with the
not-a-directory error. -/
theorem claim_C8_witness :
    ∃ m, dir_to_json "p" (some (.file "x")) defaultConfig 0 =
      .error (.treesonError m) :=
  (claim_C8 "p" (some (.file "x")) defaultConfig 0).2.1.mpr ⟨"x", Or.inl rfl⟩
